import Mathlib

/-!
Verification development for the MADNESS macro-task-queue prototype
(`src/madness/mra/test_vectormacrotask.cc`).

The development shallowly embeds, from the source:
* the task record of `MacroTaskBase` (priority and lifecycle status) and the
  coordinator operations `get_scheduled_task_number_local`, `set_complete_local`,
* the enrollment phase of `macro_taskq::run_all` (`add_replicated_task` plus the
  rank-0 `set_waiting` pass),
* the side-store trace of `run_all`/`map` (which names are written, read and
  removed, and in which order the per-task steps happen),
* the round-robin subworld partitioner `create_worlds`,
* the polymorphic task (de)serialization of `ArchiveStoreImpl`/`ArchiveLoadImpl`
  for `MacroTaskBase*`.
-/

set_option autoImplicit false

namespace MadTaskQ

/-- Lifecycle status of a task, from `MacroTaskBase::Status`
(`enum Status {Running, Waiting, Complete, Unknown}`). -/
inductive Status where
  | Running
  | Waiting
  | Complete
  | Unknown
deriving DecidableEq, Repr

/-- The scheduler-visible part of a `MacroTaskBase` record: the `priority`
field (a `double` in the source, never assigned a non-integral value; modelled
as `Int`) and the status field `stat`. -/
structure TaskRec where
  priority : Int
  stat : Status
deriving DecidableEq, Repr

/-- `MacroTaskBase::set_running`: `stat=Running`. -/
def set_running (t : TaskRec) : TaskRec := { t with stat := Status.Running }

/-- `MacroTaskBase::set_waiting`: `stat=Waiting`. -/
def set_waiting (t : TaskRec) : TaskRec := { t with stat := Status.Waiting }

/-- `MacroTaskBase::set_complete`: `stat=Complete`. -/
def set_complete (t : TaskRec) : TaskRec := { t with stat := Status.Complete }

/-- `macro_taskq::get_scheduled_task_number_local`, acting on the coordinator's
task list.  The source scans the list with
`std::find_if(taskq.begin(), taskq.end(), is_Waiting)`, and on a hit calls
`set_running` on the found element and returns its index; on a miss it returns
`-1`.  The scan is a plain front-to-back search: the `priority` field is not
consulted.  Returns the returned index together with the updated task list. -/
def get_scheduled_task_number_local : List TaskRec → Int × List TaskRec
  | [] => (-1, [])
  | t :: ts =>
    if t.stat = Status.Waiting then
      (0, set_running t :: ts)
    else
      let r := get_scheduled_task_number_local ts
      (if r.fst < 0 then (-1 : Int) else r.fst + 1, t :: r.snd)

/-- `macro_taskq::set_complete_local`: `taskq[task_number]->set_complete();`.
The source takes no lock and performs no status check; it unconditionally sets
the status of the indexed task to `Complete`.  (An out-of-range index is
undefined behaviour in the source; the model leaves the list unchanged.) -/
def set_complete_local : List TaskRec → Nat → List TaskRec
  | [], _ => []
  | t :: ts, 0 => set_complete t :: ts
  | t :: ts, n + 1 => t :: set_complete_local ts n

/-- Scheduler error taxonomy from the specification. -/
inductive SchedulerError where
  | ProtocolViolation
deriving DecidableEq, Repr

/-- Formalisation of the claim's description of `set_complete` (stated for
comparison with `set_complete_local`, which is translated from the source):
assert `status == Running` before setting `Complete`, and treat a violation as
a `ProtocolViolation`. -/
def set_complete_claim (q : List TaskRec) (n : Nat) :
    Except SchedulerError (List TaskRec) :=
  match q[n]? with
  | some t =>
      if t.stat = Status.Running then Except.ok (q.set n (set_complete t))
      else Except.error SchedulerError.ProtocolViolation
  | none => Except.error SchedulerError.ProtocolViolation

/-- `macro_taskq::add_replicated_task`: `taskq.push_back(task)`.  Note that it
is executed by every universe rank. -/
def add_replicated_task (q : List TaskRec) (t : TaskRec) : List TaskRec :=
  q ++ [t]

/-- The enrollment phase of `macro_taskq::run_all` as executed on universe rank
`rank`: `for (i) add_replicated_task(vtask[i]);` followed by
`for (auto t : taskq) if (universe.rank()==0) t->set_waiting();`.
Every rank appends all tasks to its local `taskq`; only rank 0 then marks the
whole queue `Waiting`. -/
def enroll_rank (rank : Nat) (q : List TaskRec) (vtask : List TaskRec) :
    List TaskRec :=
  let q1 := vtask.foldl add_replicated_task q
  if rank = 0 then q1.map set_waiting else q1

/-- Side-store names used by the scheduler.  `input i` stands for the data
filename of the `i`-th task (`"dummy" + std::to_string(ii++)` in
`data_type::filename`, one fresh name per task in construction order) and
`result i` stands for `"result_of_task" + std::to_string(i)`. -/
inductive SName where
  | input (i : Nat)
  | result (i : Nat)
deriving DecidableEq, Repr

/-- Observable events of a batch: side-store accesses (write, read, remove of a
named entry) and the scheduler steps `run` and `set_complete` of task `i`. -/
inductive Ev where
  | write (n : SName)
  | read (n : SName)
  | remove (n : SName)
  | run_task (i : Nat)
  | complete (i : Nat)
deriving DecidableEq, Repr

/-- State threaded through `run_all`/`map`: the coordinator's task list, the
set of names currently present in the side store (in first-write order), and
the trace of events so far. -/
structure QState where
  taskq : List TaskRec
  store : List SName
  events : List Ev
deriving DecidableEq, Repr

/-- Writing a name to the side store (a `ParallelOutputArchive` save):
overwrites silently if the name exists, otherwise adds it; always recorded in
the trace. -/
def qwrite (s : QState) (n : SName) : QState :=
  { s with
    store := if n ∈ s.store then s.store else s.store ++ [n],
    events := s.events ++ [Ev.write n] }

/-- Reading a name from the side store (a `ParallelInputArchive` load): leaves
the store unchanged and is recorded in the trace. -/
def qread (s : QState) (n : SName) : QState :=
  { s with events := s.events ++ [Ev.read n] }

/-- Helper for `store_task_data`: store the data of the tasks with the given
indices, in order. -/
def store_task_data_list (s : QState) : List Nat → QState
  | [] => s
  | i :: rest => store_task_data_list (qwrite s (SName.input i)) rest

/-- `macro_taskq::store_task_data`:
`for (auto t : taskq) t->store_and_clear_data(universe);` — each task's data is
saved to the side store under its per-task `dummy` filename and cleared from
memory. -/
def store_task_data (s : QState) : QState :=
  store_task_data_list s (List.range s.taskq.length)

/-- The body of the dispatch loop in `macro_taskq::run_all` once
`get_scheduled_task_number` has returned index `i`, in source order:
`task->get_data(subworld)` (read the input), `task->run(subworld)`,
`set_complete(element)`, `task->store_and_clear_data(subworld)` (write the data
name again), `task->store_and_clear_result(subworld, "result_of_task"+i)`. -/
def step_task (s : QState) (i : Nat) : QState :=
  let s1 := qread s (SName.input i)
  let s2 := { s1 with events := s1.events ++ [Ev.run_task i] }
  let s3 := { s2 with
    taskq := set_complete_local s2.taskq i,
    events := s2.events ++ [Ev.complete i] }
  let s4 := qwrite s3 (SName.input i)
  qwrite s4 (SName.result i)

/-- The `while (true)` dispatch loop of `run_all`, with explicit fuel (each
round either claims one `Waiting` task or observes `-1` and stops; the callers
pass enough fuel for the loop to reach `-1`). -/
def run_loop : Nat → QState → QState
  | 0, s => s
  | fuel + 1, s =>
    let r := get_scheduled_task_number_local s.taskq
    if r.fst < 0 then s
    else run_loop fuel (step_task { s with taskq := r.snd } r.fst.toNat)

/-- `macro_taskq::run_all`, sequential coordinator-side model: enroll the
tasks (all ranks append, rank 0 marks `Waiting`), `store_task_data`, then the
dispatch loop until `get_scheduled_task_number` returns `-1`. -/
def run_all (s : QState) (vtask : List TaskRec) : QState :=
  let s1 := { s with taskq := enroll_rank 0 s.taskq vtask }
  let s2 := store_task_data s1
  run_loop (s2.taskq.length + 1) s2

/-- Task construction in `macro_taskq::map`:
`vtask[i] = new taskT(vdata[i])` — a fresh task (status `Unknown`, priority 0)
per datum; the template task argument of `map` is not used. -/
def mk_task (_d : Int) : TaskRec :=
  { priority := 0, stat := Status.Unknown }

/-- The collection loop of `map`:
`vtask[i]->get_result(universe, "result_of_task"+i)` for each `i` — a read of
each result name, with no removal. -/
def collect : QState → List Nat → QState
  | s, [] => s
  | s, i :: rest => collect (qread s (SName.result i)) rest

/-- `macro_taskq::map`: build one task per input datum, `run_all`, then load
each `result_of_task<i>` back into the universe.  Returns the list of collected
result names together with the final state (the result payloads themselves are
opaque heavy objects, represented by their names). -/
def map_model (_template : TaskRec) (vdata : List Int) : List SName × QState :=
  let vtask := vdata.map mk_task
  let s1 := run_all ⟨[], [], []⟩ vtask
  let s2 := collect s1 (List.range vdata.length)
  ((List.range vdata.length).map SName.result, s2)

/-- A task record in the `Waiting` state (default priority). -/
def wT : TaskRec := { priority := 0, stat := Status.Waiting }

/-- A task record in the `Complete` state (default priority). -/
def cT : TaskRec := { priority := 0, stat := Status.Complete }

/-- A task record in the `Running` state (default priority). -/
def rT : TaskRec := { priority := 0, stat := Status.Running }

/-- The input (`dummy<i>`) names of the first `n` tasks, in order. -/
def input_names (n : Nat) : List SName :=
  (List.range n).map SName.input

/-- The `result_of_task<i>` names of the first `n` tasks, in order. -/
def result_names (n : Nat) : List SName :=
  (List.range n).map SName.result

/-- The event block emitted by the dispatch loop for task `i`, in source
order: read the input, run, report completion, re-write the input data, write
the result. -/
def task_block (i : Nat) : List Ev :=
  [Ev.read (SName.input i), Ev.run_task i, Ev.complete i,
   Ev.write (SName.input i), Ev.write (SName.result i)]

/-- Concatenated event blocks of tasks `a, a+1, ..., a+b-1`. -/
def blocks (a b : Nat) : List Ev :=
  ((List.range' a b).map task_block).flatten

/-- One step of the `process_list` construction in `create_worlds`:
`process_list[g].push_back(i)`. -/
def push_at : List (List Nat) → Nat → Nat → List (List Nat)
  | [], _, _ => []
  | l :: ls, 0, i => (l ++ [i]) :: ls
  | l :: ls, g + 1, i => l :: push_at ls g i

/-- The `process_list` built in `create_worlds`: `k` initially empty groups,
then `for (i in 0..N-1) process_list[i % k].push_back(i)`. -/
def process_list (N k : Nat) : List (List Nat) :=
  (List.range N).foldl (fun pl i => push_at pl (i % k) i) (List.replicate k [])

/-- The group-selection loop of `create_worlds` as seen by universe rank `r`:
for each group, if `r` is a member (`std::find`), remember that group (the
source builds the subworld communicator from it).  The fold keeps the last
match, exactly like the source's repeated assignment to `all_worlds`. -/
def assigned_world (N k r : Nat) : Option (List Nat) :=
  (process_list N k).foldl (fun acc pl => if r ∈ pl then some pl else acc) none

/-- Error raised by `create_worlds` (`MADNESS_EXCEPTION("increase number of
processes",1)`), corresponding to the specification's `InvalidArgument`. -/
inductive WorldError where
  | InvalidArgument
deriving DecidableEq, Repr

/-- `create_worlds(universe, nworld)` as seen by universe rank `r` of a
universe of size `N`: raise iff `universe.size() < nworld`, otherwise build the
process list and return rank `r`'s group.  (For `k = 0` the source evaluates
`i % 0` — undefined behaviour; the model's `i % 0 = i` leaves every group
untouched and no group is found.) -/
def create_worlds (N k r : Nat) : Except WorldError (Option (List Nat)) :=
  if N < k then Except.error WorldError.InvalidArgument
  else Except.ok (assigned_world N k r)

/-- The ranks the specification assigns to the subworld of group index `g`:
all universe ranks congruent to `g` modulo `k`. -/
def world_group (N k g : Nat) : List Nat :=
  (List.range N).filter (fun x => x % k == g)

/-- The payload of `data_type<double,4>` as carried by `serialize`: the plain
fields `i` and `d` (`int` and `double` in the source; both round-trip the
archive bit-exactly and are modelled as integers), the presence bit
`fexist = f.is_initialized()`, and the heavy-field handle `fimpl`
(the `FunctionImpl*` pointer written when `fexist` holds; meaningful only
then). -/
structure data_rec where
  i : Int
  d : Int
  fexist : Bool
  fimpl : Nat
deriving DecidableEq, Repr

/-- Tokens of the archive stream. -/
inductive Token where
  | tb (x : Bool)
  | ti (x : Int)
  | td (x : Int)
  | tfp (x : Nat)
  | timpl (x : Nat)
deriving DecidableEq, Repr

/-- `data_type::serialize` in the output direction:
`ar & i & d & fexist; if (fexist) ar & f.get_impl();`. -/
def serialize_data (dt : data_rec) : List Token :=
  [Token.ti dt.i, Token.td dt.d, Token.tb dt.fexist] ++
    (if dt.fexist then [Token.timpl dt.fimpl] else [])

/-- `data_type::serialize` in the input direction: read `i`, `d`, `fexist`;
if `fexist`, read the impl pointer and set it; otherwise the function member
stays default-constructed (no impl).  `none` models a truncated or malformed
stream. -/
def deserialize_data : List Token → Option (data_rec × List Token)
  | Token.ti iv :: Token.td dv :: Token.tb fe :: rest =>
    if fe then
      match rest with
      | Token.timpl h :: rest2 => some (⟨iv, dv, true, h⟩, rest2)
      | _ => none
    else some (⟨iv, dv, false, 0⟩, rest)
  | _ => none

/-- The stable kind tag of the single concrete task variant
`MacroTask<real_function_4d, data_type<double,4>>` (in the source the tag is
the address of its static `allocate_and_deserialize`, serialized as the
`voodoo` function pointer). -/
def mtask_tag : Nat := 0

/-- `MacroTaskIntermediate::allocate_and_deserialize`: default-construct the
variant and populate it from the body (`MacroTask::serialize` reads
`ar & data`). -/
def allocate_and_deserialize (ar : List Token) :
    Option (data_rec × List Token) :=
  deserialize_data ar

/-- The receiver-side registry mapping a kind tag to its deserializer; the
program registers the single variant under `mtask_tag`. -/
def registry (tag : Nat) :
    Option (List Token → Option (data_rec × List Token)) :=
  if tag = mtask_tag then some allocate_and_deserialize else none

/-- `ArchiveStoreImpl<Archive, MacroTaskBase*>::store`: write the presence bit
`exist = (mtb_ptr != NULL)`; if present, write the deserializer tag (`voodoo`)
and then the body via `mtb_ptr->store(ar)`. -/
def store_taskptr : Option data_rec → List Token
  | none => [Token.tb false]
  | some dt => Token.tb true :: Token.tfp mtask_tag :: serialize_data dt

/-- `ArchiveLoadImpl<Archive, MacroTaskBase*>::load`: `mtb_ptr = NULL`; read
the presence bit; if set, read the deserializer tag, look it up and run it.
`none` models a truncated stream or an unregistered tag. -/
def load_taskptr : List Token → Option (Option data_rec × List Token)
  | Token.tb false :: rest => some (none, rest)
  | Token.tb true :: Token.tfp tag :: rest =>
    match registry tag with
    | some loader => (loader rest).map (fun p => (some p.fst, p.snd))
    | none => none
  | _ => none

/-- A concrete two-element queue (a `Complete` task before a `Waiting` one),
used to witness the scheduler theorems. -/
def c1_queue : List TaskRec :=
  [{ priority := 0, stat := Status.Complete },
   { priority := 0, stat := Status.Waiting }]

/-- Equality of payloads on the plain fields and on the presence bit and (when
present) the heavy-field handle — the wire never carries the heavy data
itself. -/
def data_equiv (a b : data_rec) : Prop :=
  a.i = b.i ∧ a.d = b.d ∧ a.fexist = b.fexist ∧
    (a.fexist = true → a.fimpl = b.fimpl)

theorem foldl_add_replicated (vtask : List TaskRec) :
    ∀ q : List TaskRec, vtask.foldl add_replicated_task q = q ++ vtask := by
  induction vtask with
  | nil => intro q; simp
  | cons t ts ih =>
      intro q
      simp only [List.foldl_cons, ih, add_replicated_task, List.append_assoc,
        List.singleton_append]

theorem gstn_none (q : List TaskRec)
    (h : ∀ t ∈ q, t.stat ≠ Status.Waiting) :
    get_scheduled_task_number_local q = (-1, q) := by
  induction q with
  | nil => rfl
  | cons t ts ih =>
      have ht : t.stat ≠ Status.Waiting := h t (by simp)
      have hts : get_scheduled_task_number_local ts = (-1, ts) :=
        ih (fun u hu => h u (by simp [hu]))
      simp [get_scheduled_task_number_local, ht, hts]

/-- Full characterisation of one scheduling step: either no task is `Waiting`
and the call returns `-1` leaving the list unchanged, or the call returns the
smallest index holding a `Waiting` task and marks exactly that task
`Running`. -/
theorem gstn_characterization (q : List TaskRec) :
    ((∀ t ∈ q, t.stat ≠ Status.Waiting) ∧
      get_scheduled_task_number_local q = (-1, q)) ∨
    (∃ (n : Nat) (t : TaskRec), q[n]? = some t ∧ t.stat = Status.Waiting ∧
      (∀ (m : Nat) (u : TaskRec), m < n → q[m]? = some u →
        u.stat ≠ Status.Waiting) ∧
      get_scheduled_task_number_local q = ((n : Int), q.set n (set_running t))) := by
  induction q with
  | nil => exact Or.inl ⟨by simp, rfl⟩
  | cons t ts ih =>
      by_cases hw : t.stat = Status.Waiting
      · refine Or.inr ⟨0, t, by simp, hw, ?_, ?_⟩
        · intro m u hm; omega
        · simp [get_scheduled_task_number_local, hw]
      · rcases ih with ⟨hall, heq⟩ | ⟨n, u, hn, hu, hmin, heq⟩
        · refine Or.inl ⟨?_, ?_⟩
          · intro x hx
            rcases List.mem_cons.mp hx with rfl | hx
            · exact hw
            · exact hall x hx
          · simp [get_scheduled_task_number_local, hw, heq]
        · refine Or.inr ⟨n + 1, u, by simpa using hn, hu, ?_, ?_⟩
          · intro m v hm hv
            cases m with
            | zero =>
                simp only [List.getElem?_cons_zero, Option.some.injEq] at hv
                exact hv ▸ hw
            | succ m' =>
                have : m' < n := by omega
                exact hmin m' v this (by simpa using hv)
          · have hnn : ¬ ((n : Int) < 0) := by omega
            simp only [get_scheduled_task_number_local, if_neg hw, heq, hnn,
              if_false, List.set_cons_succ]
            congr 1

/-- C10: every call to `get_scheduled_task_number_local` either changes exactly
one task's status — the `Waiting` task with the smallest insertion index — from
`Waiting` to `Running` and returns that index, a valid position of the list, or
returns `-1` when no task is `Waiting`; in both cases every other task's
status, and the list's membership and order, are unchanged (the updated list is
`q.set n (set_running t)` in the first case and `q` itself in the second). -/
theorem C10_scheduler_step (q : List TaskRec) :
    (get_scheduled_task_number_local q = (-1, q) ∧
      ∀ t ∈ q, t.stat ≠ Status.Waiting) ∨
    (∃ (n : Nat) (t : TaskRec), n < q.length ∧ q[n]? = some t ∧
      t.stat = Status.Waiting ∧
      (∀ (m : Nat) (u : TaskRec), m < n → q[m]? = some u →
        u.stat ≠ Status.Waiting) ∧
      get_scheduled_task_number_local q = ((n : Int), q.set n (set_running t))) := by
  rcases gstn_characterization q with ⟨hall, heq⟩ | ⟨n, t, hn, ht, hmin, heq⟩
  · exact Or.inl ⟨heq, hall⟩
  · refine Or.inr ⟨n, t, ?_, hn, ht, hmin, heq⟩
    exact (List.getElem?_eq_some.mp hn).1

/-- C1 counterexample: for the queue holding a priority-0 `Waiting` task at
index 0 and a priority-5 `Waiting` task at index 1, the scheduler claims index
0 and marks it `Running` while the priority-5 task is still `Waiting` — a
lower-priority task is claimed while a higher-priority `Waiting` task exists,
so the call does not return the highest-priority `Waiting` task. -/
theorem C1_priority_counterexample :
    get_scheduled_task_number_local
        [{ priority := 0, stat := Status.Waiting },
         { priority := 5, stat := Status.Waiting }]
      = (0, [{ priority := 0, stat := Status.Running },
             { priority := 5, stat := Status.Waiting }]) := by
  decide

/-- C1 (amended): `get_scheduled_task_number_local` ignores the priority field
altogether: whenever some `Waiting` task exists (say at index `j`), it claims
the `Waiting` task of smallest insertion index `n ≤ j`, marks exactly that task
`Running` and returns `n`.  In particular, for two tasks of equal priority at
indices `i < j` that are both `Waiting`, `i` is claimed before `j`; but a
lower-priority `Waiting` task at a smaller index is claimed ahead of a
higher-priority `Waiting` task at a larger index. -/
theorem C1_next_waiting_fifo (q : List TaskRec) (j : Nat) (u : TaskRec)
    (hj : q[j]? = some u) (hu : u.stat = Status.Waiting) :
    ∃ (n : Nat) (t : TaskRec), n ≤ j ∧ q[n]? = some t ∧
      t.stat = Status.Waiting ∧
      (∀ (m : Nat) (v : TaskRec), m < n → q[m]? = some v →
        v.stat ≠ Status.Waiting) ∧
      get_scheduled_task_number_local q = ((n : Int), q.set n (set_running t)) := by
  rcases gstn_characterization q with ⟨hall, _⟩ | ⟨n, t, hn, ht, hmin, heq⟩
  · obtain ⟨hlt, hgt⟩ := List.getElem?_eq_some.mp hj
    exact absurd hu (hall u (hgt ▸ List.getElem_mem hlt))
  · refine ⟨n, t, ?_, hn, ht, hmin, heq⟩
    by_contra hlt
    exact hmin j u (by omega) hj hu

/-- Witness for `C1_next_waiting_fifo` at a concrete queue: a non-`Waiting`
task at index 0 and a `Waiting` task at index 1. -/
theorem C1_next_waiting_fifo_witness :
    (c1_queue[1]? = some (TaskRec.mk 0 Status.Waiting)) ∧
    ((TaskRec.mk 0 Status.Waiting).stat = Status.Waiting) ∧
    (∃ (n : Nat) (t : TaskRec), n ≤ 1 ∧ c1_queue[n]? = some t ∧
      t.stat = Status.Waiting ∧
      (∀ (m : Nat) (v : TaskRec), m < n → c1_queue[m]? = some v →
        v.stat ≠ Status.Waiting) ∧
      get_scheduled_task_number_local c1_queue
        = ((n : Int), c1_queue.set n (set_running t))) :=
  ⟨by decide, rfl,
    C1_next_waiting_fifo c1_queue 1 (TaskRec.mk 0 Status.Waiting)
      (by decide) rfl⟩

/-- C3 counterexample: calling `set_complete_local` on a task whose status is
`Waiting` (not `Running`) quietly sets it to `Complete` — the source performs
no mutex acquisition and no status assertion — whereas the claimed behaviour
(`set_complete_claim`, which formalises the claim's precondition) is a
`ProtocolViolation`. -/
theorem C3_set_complete_counterexample :
    set_complete_local [{ priority := 0, stat := Status.Waiting }] 0
        = [{ priority := 0, stat := Status.Complete }] ∧
    set_complete_claim [{ priority := 0, stat := Status.Waiting }] 0
        = Except.error SchedulerError.ProtocolViolation :=
  ⟨rfl, rfl⟩

/-- C3 (amended): `set_complete_local` asserts only that it runs on the
coordinator rank; it takes no lock and checks no status: for every in-range
index it unconditionally replaces the indexed task's status by `Complete`,
whatever its previous status, leaving every other task unchanged. -/
theorem C3_set_complete_unconditional (q : List TaskRec) (n : Nat)
    (t : TaskRec) (hn : q[n]? = some t) :
    set_complete_local q n = q.set n (set_complete t) := by
  induction q generalizing n with
  | nil => simp at hn
  | cons x xs ih =>
      cases n with
      | zero =>
          simp only [List.getElem?_cons_zero, Option.some.injEq] at hn
          subst hn
          rfl
      | succ m =>
          simp only [List.getElem?_cons_succ] at hn
          simp [set_complete_local, List.set_cons_succ, ih m hn]

/-- Witness for `C3_set_complete_unconditional` at a concrete queue. -/
theorem C3_set_complete_unconditional_witness :
    ([{ priority := 0, stat := Status.Waiting }] : List TaskRec)[0]?
        = some { priority := 0, stat := Status.Waiting } ∧
    set_complete_local [{ priority := 0, stat := Status.Waiting }] 0
        = ([{ priority := 0, stat := Status.Waiting }] : List TaskRec).set 0
            (set_complete { priority := 0, stat := Status.Waiting }) :=
  ⟨by decide, C3_set_complete_unconditional _ 0 _ (by decide)⟩

/-- C4 counterexample: after the enrollment phase of `run_all`, universe rank 1
holds a non-empty task list — `add_replicated_task` pushes every task on every
rank, so ranks other than the coordinator do hold scheduler state beyond their
subworld handle, contrary to the claim. -/
theorem C4_replication_counterexample :
    enroll_rank 1 [] [{ priority := 0, stat := Status.Unknown }]
        = [{ priority := 0, stat := Status.Unknown }] ∧
    enroll_rank 1 [] [{ priority := 0, stat := Status.Unknown }] ≠ [] := by
  decide

/-- C4 (amended): the task list is replicated: after enrollment every universe
rank holds the full ordered task list (the previous queue followed by the new
tasks, in insertion order); the only rank-0-specific state is the status pass
— rank 0 marks every queued task `Waiting` while the copies on all other ranks
keep their statuses. -/
theorem C4_replicated_enrollment (rank : Nat) (q vtask : List TaskRec) :
    enroll_rank rank q vtask
      = if rank = 0 then (q ++ vtask).map set_waiting else q ++ vtask := by
  unfold enroll_rank
  rw [foldl_add_replicated]

theorem gstn_replicate_complete (d : Nat) :
    get_scheduled_task_number_local (List.replicate d cT)
      = (-1, List.replicate d cT) := by
  apply gstn_none
  intro t ht
  rw [List.eq_of_mem_replicate ht]
  simp [cT]

theorem gstn_claim_next (d : Nat) (q : List TaskRec) :
    get_scheduled_task_number_local (List.replicate d cT ++ wT :: q)
      = ((d : Int), List.replicate d cT ++ rT :: q) := by
  induction d with
  | zero =>
      simp [get_scheduled_task_number_local, wT, rT, set_running]
  | succ d ih =>
      rw [List.replicate_succ, List.cons_append, List.cons_append]
      have hC : cT.stat ≠ Status.Waiting := by simp [cT]
      simp only [get_scheduled_task_number_local, if_neg hC, ih]
      have : ¬ ((d : Int) < 0) := by omega
      simp only [this, if_false]
      congr 1

theorem scl_replicate (d : Nat) (t : TaskRec) (q : List TaskRec) :
    set_complete_local (List.replicate d cT ++ t :: q) d
      = List.replicate d cT ++ set_complete t :: q := by
  induction d with
  | zero => rfl
  | succ d ih =>
      rw [List.replicate_succ, List.cons_append, List.cons_append]
      simp [set_complete_local, ih]

theorem mem_input_names (i n : Nat) :
    SName.input i ∈ input_names n ↔ i < n := by
  simp [input_names]

theorem not_mem_result_input_names (i n : Nat) :
    SName.result i ∉ input_names n := by
  simp [input_names]

theorem mem_result_names (i n : Nat) :
    SName.result i ∈ result_names n ↔ i < n := by
  simp [result_names]

theorem result_names_succ (n : Nat) :
    result_names (n + 1) = result_names n ++ [SName.result n] := by
  unfold result_names
  rw [List.range_succ, List.map_append]
  rfl

theorem blocks_zero (a : Nat) : blocks a 0 = [] := rfl

theorem run_loop_succ (fuel : Nat) (q : List TaskRec) (st : List SName)
    (ev : List Ev) :
    run_loop (fuel + 1) ⟨q, st, ev⟩
      = if (get_scheduled_task_number_local q).fst < 0 then ⟨q, st, ev⟩
        else run_loop fuel
          (step_task ⟨(get_scheduled_task_number_local q).snd, st, ev⟩
            (get_scheduled_task_number_local q).fst.toNat) := rfl

theorem blocks_succ (a b : Nat) :
    blocks a (b + 1) = task_block a ++ blocks (a + 1) b := by
  unfold blocks
  rw [List.range'_succ, List.map_cons, List.flatten_cons]

/-- Trace of the dispatch loop: if the queue consists of `d` completed tasks
followed by `m` waiting tasks and the store already holds the `n` input names
and the first `d` result names, the loop claims and completes tasks
`d, d+1, ..., n-1` in index order, emitting the event blocks of the tasks in
that order, re-writing each input name and adding each result name. -/
theorem run_loop_trace :
    ∀ (m d n : Nat) (ev : List Ev), d + m = n →
    run_loop (m + 1)
        ⟨List.replicate d cT ++ List.replicate m wT,
         input_names n ++ result_names d, ev⟩
      = ⟨List.replicate n cT, input_names n ++ result_names n,
         ev ++ blocks d m⟩ := by
  intro m
  induction m with
  | zero =>
      intro d n ev hdn
      have hd : d = n := by omega
      subst hd
      rw [List.replicate_zero, List.append_nil, run_loop_succ,
        gstn_replicate_complete]
      norm_num [blocks_zero]
  | succ m ih =>
      intro d n ev hdn
      rw [List.replicate_succ, run_loop_succ, gstn_claim_next]
      have hneg : ¬ ((d : Int) < 0) := by omega
      simp only [hneg, if_false, Int.toNat_natCast]
      have hstep :
          step_task
              ⟨List.replicate d cT ++ rT :: List.replicate m wT,
               input_names n ++ result_names d, ev⟩ d
            = ⟨List.replicate (d + 1) cT ++ List.replicate m wT,
               input_names n ++ result_names (d + 1),
               ev ++ task_block d⟩ := by
        have hin : SName.input d ∈ input_names n ++ result_names d := by
          apply List.mem_append_left
          exact (mem_input_names d n).mpr (by omega)
        have hout : SName.result d ∉ input_names n ++ result_names d := by
          intro hmem
          rcases List.mem_append.mp hmem with h1 | h2
          · exact not_mem_result_input_names d n h1
          · have : d < d := (mem_result_names d d).mp h2
            omega
        simp only [step_task, qread, qwrite, scl_replicate, if_pos hin,
          if_neg hout]
        have hq : set_complete rT = cT := rfl
        rw [hq]
        have hrep : List.replicate d cT ++ cT :: List.replicate m wT
            = List.replicate (d + 1) cT ++ List.replicate m wT := by
          rw [List.replicate_succ' d cT, List.append_assoc,
            List.singleton_append]
        rw [hrep, result_names_succ, ← List.append_assoc]
        simp [task_block, List.append_assoc]
      rw [hstep, ih (d + 1) n (ev ++ task_block d) (by omega)]
      rw [blocks_succ, ← List.append_assoc]

/-- Trace of `store_task_data_list` over a run of fresh indices: starting from
a store holding exactly the first `a` input names, storing the data of tasks
`a, ..., a+b-1` appends their input names to the store and their write events
to the trace. -/
theorem store_task_data_list_trace :
    ∀ (b a : Nat) (q : List TaskRec) (ev : List Ev),
    store_task_data_list ⟨q, input_names a, ev⟩ (List.range' a b)
      = ⟨q, input_names (a + b),
         ev ++ (List.range' a b).map (fun i => Ev.write (SName.input i))⟩ := by
  intro b
  induction b with
  | zero => intro a q ev; simp [store_task_data_list]
  | succ b ih =>
      intro a q ev
      rw [List.range'_succ]
      have hfresh : SName.input a ∉ input_names a := by
        rw [mem_input_names]; omega
      show store_task_data_list (qwrite _ _) _ = _
      simp only [qwrite, if_neg hfresh]
      have hnames : input_names a ++ [SName.input a] = input_names (a + 1) := by
        unfold input_names
        rw [List.range_succ, List.map_append]
        rfl
      rw [hnames, ih (a + 1) q (ev ++ [Ev.write (SName.input a)])]
      have harith : a + 1 + b = a + (b + 1) := by omega
      rw [harith, List.map_cons, List.append_assoc, List.singleton_append]

/-- Trace of the collection loop of `map`: a read event per listed result
index, with the store untouched. -/
theorem collect_trace :
    ∀ (l : List Nat) (s : QState),
    collect s l
      = { s with events :=
            s.events ++ l.map (fun i => Ev.read (SName.result i)) } := by
  intro l
  induction l with
  | nil => intro s; simp [collect]
  | cons i rest ih =>
      intro s
      show collect (qread s _) _ = _
      rw [ih]
      simp [qread, List.append_assoc]

theorem map_mk_set_waiting (vdata : List Int) :
    (vdata.map mk_task).map set_waiting = List.replicate vdata.length wT := by
  induction vdata with
  | nil => rfl
  | cons x xs ih =>
      simp only [List.map_cons, List.length_cons, List.replicate_succ, ih]
      rfl

/-- Closed form of the whole `map` call: the final task list is all-`Complete`,
the final store holds every input name and every result name (nothing is ever
removed), and the event trace is: the enrollment writes of the input names,
then the per-task dispatch blocks in index order, then the collection reads of
the result names. -/
theorem map_model_trace (t : TaskRec) (vdata : List Int) :
    map_model t vdata
      = ((List.range vdata.length).map SName.result,
         ⟨List.replicate vdata.length cT,
          input_names vdata.length ++ result_names vdata.length,
          (List.range vdata.length).map (fun i => Ev.write (SName.input i))
            ++ blocks 0 vdata.length
            ++ (List.range vdata.length).map
                (fun i => Ev.read (SName.result i))⟩) := by
  have henroll : enroll_rank 0 [] (vdata.map mk_task)
      = List.replicate vdata.length wT := by
    unfold enroll_rank
    rw [foldl_add_replicated]
    simp only [if_pos rfl, List.nil_append]
    exact map_mk_set_waiting vdata
  have hstore : store_task_data ⟨List.replicate vdata.length wT, [], []⟩
      = ⟨List.replicate vdata.length wT, input_names vdata.length,
         (List.range vdata.length).map (fun i => Ev.write (SName.input i))⟩ := by
    simp only [store_task_data, List.length_replicate]
    have h0 : ([] : List SName) = input_names 0 := rfl
    rw [List.range_eq_range', h0,
      store_task_data_list_trace vdata.length 0
        (List.replicate vdata.length wT) []]
    rw [Nat.zero_add, List.nil_append, ← List.range_eq_range']
  have hrunall : run_all ⟨[], [], []⟩ (vdata.map mk_task)
      = ⟨List.replicate vdata.length cT,
         input_names vdata.length ++ result_names vdata.length,
         (List.range vdata.length).map (fun i => Ev.write (SName.input i))
           ++ blocks 0 vdata.length⟩ := by
    show run_loop
        ((store_task_data
            ⟨enroll_rank 0 [] (vdata.map mk_task), [], []⟩).taskq.length + 1)
        (store_task_data ⟨enroll_rank 0 [] (vdata.map mk_task), [], []⟩) = _
    rw [henroll, hstore]
    simp only [List.length_replicate]
    have hres0 : result_names 0 = ([] : List SName) := rfl
    have htr := run_loop_trace vdata.length 0 vdata.length
      ((List.range vdata.length).map (fun i => Ev.write (SName.input i)))
      (by omega)
    simpa [hres0] using htr
  show ((List.range vdata.length).map SName.result,
      collect (run_all ⟨[], [], []⟩ (vdata.map mk_task))
        (List.range vdata.length)) = _
  rw [hrunall, collect_trace]

/-- C9: `map` of the empty input vector (for any template task) returns the
empty result vector, leaves the side store empty and performs no side-store
access at all: the event trace is empty. -/
theorem C9_empty_map (t : TaskRec) :
    map_model t [] = ([], ⟨[], [], []⟩) := rfl

/-- C2 counterexample: for a one-element batch, after `map` returns the side
store still holds the task's input name and its result name (it is not empty),
and no `remove` of `result_of_task0` (indeed no remove at all) ever happened —
the claimed "removed exactly once" and "side store empty after `map`" both
fail. -/
theorem C2_side_store_counterexample :
    (map_model (TaskRec.mk 0 Status.Unknown) [7]).snd.store
        = [SName.input 0, SName.result 0] ∧
    (map_model (TaskRec.mk 0 Status.Unknown) [7]).snd.events.count
        (Ev.remove (SName.result 0)) = 0 ∧
    (map_model (TaskRec.mk 0 Status.Unknown) [7]).snd.store ≠ [] := by
  decide

theorem count_map_range (f : Nat → Ev) (hf : ∀ a b, f a = f b → a = b)
    (n i : Nat) :
    ((List.range n).map f).count (f i) = if i < n then 1 else 0 := by
  induction n with
  | zero => simp
  | succ n ih =>
      rw [List.range_succ, List.map_append, List.count_append, ih]
      have hsing : (List.map f [n]).count (f i) = if i = n then 1 else 0 := by
        rw [List.map_cons, List.map_nil]
        by_cases h : i = n
        · subst h
          rw [if_pos rfl]
          simp
        · rw [if_neg h, List.count_eq_zero]
          intro hmem
          rw [List.mem_singleton] at hmem
          exact h (hf i n hmem)
      rw [hsing]
      rcases Nat.lt_trichotomy i n with hlt | heq | hgt
      · rw [if_pos hlt, if_neg (by omega : ¬ i = n),
          if_pos (by omega : i < n + 1)]
      · rw [if_neg (by omega : ¬ i < n), if_pos heq,
          if_pos (by omega : i < n + 1)]
      · rw [if_neg (by omega : ¬ i < n), if_neg (by omega : ¬ i = n),
          if_neg (by omega : ¬ i < n + 1)]

theorem count_map_range_ne (f : Nat → Ev) (e : Ev) (he : ∀ j, f j ≠ e)
    (n : Nat) :
    ((List.range n).map f).count e = 0 := by
  rw [List.count_eq_zero]
  intro hmem
  rcases List.mem_map.mp hmem with ⟨j, _, hj⟩
  exact he j hj

theorem count_task_block_write_result (i a : Nat) :
    (task_block a).count (Ev.write (SName.result i))
      = if i = a then 1 else 0 := by
  by_cases h : i = a
  · subst h
    simp [task_block, List.count_cons]
  · simp [task_block, List.count_cons, h, Ne.symm h]

theorem count_blocks_write_result (i : Nat) :
    ∀ (b a : Nat), (blocks a b).count (Ev.write (SName.result i))
      = if a ≤ i ∧ i < a + b then 1 else 0 := by
  intro b
  induction b with
  | zero =>
      intro a
      rw [blocks_zero, List.count_nil]
      have : ¬ (a ≤ i ∧ i < a + 0) := by omega
      rw [if_neg this]
  | succ b ih =>
      intro a
      rw [blocks_succ, List.count_append, ih (a + 1),
        count_task_block_write_result]
      split_ifs <;> omega

theorem count_task_block_no_read_result (i a : Nat) :
    (task_block a).count (Ev.read (SName.result i)) = 0 := by
  simp [task_block, List.count_cons]

theorem count_blocks_read_result (i : Nat) :
    ∀ (b a : Nat), (blocks a b).count (Ev.read (SName.result i)) = 0 := by
  intro b
  induction b with
  | zero => intro a; rw [blocks_zero, List.count_nil]
  | succ b ih =>
      intro a
      rw [blocks_succ, List.count_append, ih (a + 1),
        count_task_block_no_read_result]

theorem count_blocks_remove (x : SName) :
    ∀ (b a : Nat), (blocks a b).count (Ev.remove x) = 0 := by
  intro b
  induction b with
  | zero => intro a; rw [blocks_zero, List.count_nil]
  | succ b ih =>
      intro a
      rw [blocks_succ, List.count_append, ih (a + 1)]
      simp [task_block, List.count_cons]

/-- C2 (amended): accounting of the side store over a whole batch.  For every
batch and every task index `i`, the name `result_of_task<i>` is written exactly
once and read (loaded into the collector) exactly once, but no name is ever
removed from the side store, and after `map` returns the store still holds all
the input names and all the result names — it is not empty for a non-empty
batch. -/
theorem C2_side_store_accounting (t : TaskRec) (vdata : List Int) (i : Nat)
    (h : i < vdata.length) :
    (map_model t vdata).snd.events.count (Ev.write (SName.result i)) = 1 ∧
    (map_model t vdata).snd.events.count (Ev.read (SName.result i)) = 1 ∧
    (∀ x : SName,
      (map_model t vdata).snd.events.count (Ev.remove x) = 0) ∧
    (map_model t vdata).snd.store
      = input_names vdata.length ++ result_names vdata.length := by
  rw [map_model_trace]
  refine ⟨?_, ?_, ?_, rfl⟩
  · simp only [List.count_append]
    rw [count_map_range_ne (fun j => Ev.write (SName.input j)) _
        (fun j => by simp) vdata.length,
      count_map_range_ne (fun j => Ev.read (SName.result j)) _
        (fun j => by simp) vdata.length,
      count_blocks_write_result i vdata.length 0]
    have : 0 ≤ i ∧ i < 0 + vdata.length := by omega
    rw [if_pos this]
  · simp only [List.count_append]
    rw [count_map_range_ne (fun j => Ev.write (SName.input j)) _
        (fun j => by simp) vdata.length,
      count_blocks_read_result i vdata.length 0]
    have hcnt := count_map_range (fun j => Ev.read (SName.result j))
      (fun a b hab => by simpa using hab) vdata.length i
    rw [hcnt, if_pos h]
  · intro x
    simp only [List.count_append]
    rw [count_map_range_ne (fun j => Ev.write (SName.input j)) _
        (fun j => by simp) vdata.length,
      count_map_range_ne (fun j => Ev.read (SName.result j)) _
        (fun j => by simp) vdata.length,
      count_blocks_remove x vdata.length 0]

/-- Witness for `C2_side_store_accounting` on a one-element batch. -/
theorem C2_side_store_accounting_witness :
    0 < ([3] : List Int).length ∧
    ((map_model (TaskRec.mk 0 Status.Unknown) [3]).snd.events.count
        (Ev.write (SName.result 0)) = 1 ∧
      (map_model (TaskRec.mk 0 Status.Unknown) [3]).snd.events.count
        (Ev.read (SName.result 0)) = 1 ∧
      (∀ x : SName,
        (map_model (TaskRec.mk 0 Status.Unknown) [3]).snd.events.count
          (Ev.remove x) = 0) ∧
      (map_model (TaskRec.mk 0 Status.Unknown) [3]).snd.store
        = input_names ([3] : List Int).length
            ++ result_names ([3] : List Int).length) :=
  ⟨by decide,
   C2_side_store_accounting (TaskRec.mk 0 Status.Unknown) [3] 0 (by decide)⟩

theorem blocks_split (c : Nat) :
    ∀ (b a : Nat), blocks a (b + c) = blocks a b ++ blocks (a + b) c := by
  intro b
  induction b with
  | zero =>
      intro a
      rw [Nat.zero_add, blocks_zero, List.nil_append, Nat.add_zero]
  | succ b ih =>
      intro a
      have h1 : b + 1 + c = (b + c) + 1 := by omega
      rw [h1, blocks_succ, ih (a + 1), blocks_succ, List.append_assoc]
      have h2 : a + 1 + b = a + (b + 1) := by omega
      rw [h2]

/-- C6 counterexample: the exhaustive event trace of a one-element batch.  The
`complete 0` event (the `set_complete` RPC) occurs strictly before the write of
`result_of_task0` (`store_and_clear_result`): `set_complete(i)` is invoked
before the task's output has been persisted, contrary to the claimed order. -/
theorem C6_order_counterexample :
    (map_model (TaskRec.mk 0 Status.Unknown) [5]).snd.events
      = [Ev.write (SName.input 0), Ev.read (SName.input 0), Ev.run_task 0,
         Ev.complete 0, Ev.write (SName.input 0), Ev.write (SName.result 0),
         Ev.read (SName.result 0)] := by
  decide

/-- C6 (amended): in the dispatch loop the per-task steps occur, for every
claimed index `i`, in the order given by `task_block i`: `load_input`, then
`run`, then `set_complete(i)`, then the re-persist of the task data, and only
then `persist_output` under the name `result_of_task<i>` — i.e. completion is
reported before the output is persisted, and the in-memory working set is
cleared by the two `store_and_clear` calls after `set_complete`. -/
theorem C6_dispatch_order (t : TaskRec) (vdata : List Int) (i : Nat)
    (h : i < vdata.length) :
    ∃ p s : List Ev,
      (map_model t vdata).snd.events = p ++ task_block i ++ s := by
  rw [map_model_trace]
  have h1 : vdata.length = i + (1 + (vdata.length - i - 1)) := by omega
  have hsplit : blocks 0 vdata.length
      = blocks 0 i ++ (task_block i ++ blocks (i + 1) (vdata.length - i - 1)) := by
    conv_lhs => rw [h1]
    have h2 : i + (1 + (vdata.length - i - 1))
        = i + ((vdata.length - i - 1) + 1) := by omega
    rw [h2, blocks_split ((vdata.length - i - 1) + 1) i 0, Nat.zero_add]
    have h3 : (vdata.length - i - 1) + 1 = (vdata.length - i - 1 + 1) := rfl
    rw [blocks_succ]
  refine ⟨(List.range vdata.length).map (fun j => Ev.write (SName.input j))
      ++ blocks 0 i,
    blocks (i + 1) (vdata.length - i - 1)
      ++ (List.range vdata.length).map (fun j => Ev.read (SName.result j)), ?_⟩
  rw [hsplit]
  simp [List.append_assoc]

/-- Witness for `C6_dispatch_order` on a one-element batch. -/
theorem C6_dispatch_order_witness :
    0 < ([5] : List Int).length ∧
    (∃ p s : List Ev,
      (map_model (TaskRec.mk 0 Status.Unknown) [5]).snd.events
        = p ++ task_block 0 ++ s) :=
  ⟨by decide,
   C6_dispatch_order (TaskRec.mk 0 Status.Unknown) [5] 0 (by decide)⟩

/-- C7: serialization round-trips.  For every task pointer (present or null),
deserializing the byte stream produced by serializing it consumes the whole
stream and yields a task pointer with the same presence, equal on all plain
fields and on the presence bit / handle of the heavy field (`data_equiv`); the
wire form of a present task is the presence byte, then the kind tag, then the
opaque body; and a presence byte of 0 encodes a null task pointer which
deserializes back to null (in any message suffix). -/
theorem C7_serialization_roundtrip (t : Option data_rec) :
    (∃ t2 : Option data_rec, load_taskptr (store_taskptr t) = some (t2, []) ∧
      ((t = none ∧ t2 = none) ∨
        (∃ a b : data_rec, t = some a ∧ t2 = some b ∧ data_equiv a b))) ∧
    store_taskptr none = [Token.tb false] ∧
    (∀ rest : List Token,
      load_taskptr (Token.tb false :: rest) = some (none, rest)) ∧
    (∀ dt : data_rec,
      store_taskptr (some dt)
        = Token.tb true :: Token.tfp mtask_tag :: serialize_data dt) := by
  refine ⟨?_, rfl, fun rest => rfl, fun dt => rfl⟩
  cases t with
  | none => exact ⟨none, rfl, Or.inl ⟨rfl, rfl⟩⟩
  | some dt =>
      cases dt with
      | mk iv dv fe h =>
          cases fe with
          | false =>
              refine ⟨some ⟨iv, dv, false, 0⟩, ?_, Or.inr
                ⟨⟨iv, dv, false, h⟩, ⟨iv, dv, false, 0⟩, rfl, rfl,
                  rfl, rfl, rfl, by simp⟩⟩
              rfl
          | true =>
              exact ⟨some ⟨iv, dv, true, h⟩, rfl, Or.inr
                ⟨⟨iv, dv, true, h⟩, ⟨iv, dv, true, h⟩, rfl, rfl,
                  rfl, rfl, rfl, fun _ => rfl⟩⟩

theorem push_at_getElem? :
    ∀ (pl : List (List Nat)) (g i j : Nat),
    (push_at pl g i)[j]?
      = if j = g then (pl[j]?).map (fun l => l ++ [i]) else pl[j]? := by
  intro pl
  induction pl with
  | nil =>
      intro g i j
      simp [push_at]
  | cons l ls ih =>
      intro g i j
      cases g with
      | zero =>
          cases j with
          | zero => simp [push_at]
          | succ j2 => simp [push_at]
      | succ g2 =>
          cases j with
          | zero => simp [push_at]
          | succ j2 =>
              have hps : push_at (l :: ls) (g2 + 1) i = l :: push_at ls g2 i :=
                rfl
              rw [hps, List.getElem?_cons_succ, List.getElem?_cons_succ,
                ih g2 i j2]
              by_cases h : j2 = g2
              · simp [h]
              · have h2 : ¬ (j2 + 1 = g2 + 1) := by omega
                simp [h, h2]

theorem process_list_succ (N k : Nat) :
    process_list (N + 1) k = push_at (process_list N k) (N % k) N := by
  unfold process_list
  rw [List.range_succ, List.foldl_append]
  rfl

theorem mem_world_group (N k g x : Nat) :
    x ∈ world_group N k g ↔ x < N ∧ x % k = g := by
  unfold world_group
  rw [List.mem_filter, List.mem_range]
  simp

theorem process_list_getElem? (N k : Nat) :
    ∀ g, (process_list N k)[g]?
      = if g < k then some (world_group N k g) else none := by
  induction N with
  | zero =>
      intro g
      show (List.replicate k ([] : List Nat))[g]? = _
      rw [List.getElem?_replicate]
      by_cases h : g < k <;> simp [h, world_group]
  | succ N ih =>
      intro g
      rw [process_list_succ, push_at_getElem?, ih]
      by_cases hg : g = N % k
      · rw [if_pos hg]
        by_cases hk : g < k
        · rw [if_pos hk, if_pos hk, Option.map_some']
          congr 1
          unfold world_group
          rw [List.range_succ, List.filter_append]
          congr 1
          subst hg
          simp
        · rw [if_neg hk, if_neg hk]
          simp
      · rw [if_neg hg]
        by_cases hk : g < k
        · rw [if_pos hk, if_pos hk]
          congr 1
          unfold world_group
          rw [List.range_succ, List.filter_append]
          have hne : (N % k == g) = false := by
            simp
            exact fun h => hg h.symm
          simp [List.filter, hne]
        · rw [if_neg hk, if_neg hk]

theorem process_list_eq (N k : Nat) :
    process_list N k = (List.range k).map (world_group N k) := by
  apply List.ext_getElem?
  intro g
  rw [process_list_getElem?, List.getElem?_map (world_group N k) (List.range k) g]
  by_cases h : g < k
  · rw [if_pos h, List.getElem?_range h]
    simp
  · rw [if_neg h]
    have hnone : (List.range k)[g]? = none := by
      apply List.getElem?_eq_none
      simpa using Nat.le_of_not_lt h
    rw [hnone]
    simp

theorem fold_world_miss (r : Nat) :
    ∀ (L : List (List Nat)) (acc : Option (List Nat)),
    (∀ pl ∈ L, r ∉ pl) →
    L.foldl (fun acc pl => if r ∈ pl then some pl else acc) acc = acc := by
  intro L
  induction L with
  | nil => intro acc _; rfl
  | cons pl ls ih =>
      intro acc h
      have hpl : r ∉ pl := h pl (by simp)
      rw [List.foldl_cons, if_neg hpl]
      exact ih acc (fun x hx => h x (by simp [hx]))

theorem fold_world_hit (r N k : Nat) (hrN : r < N) :
    ∀ (b a : Nat) (acc : Option (List Nat)),
    a ≤ r % k → r % k < a + b →
    ((List.range' a b).map (world_group N k)).foldl
        (fun acc pl => if r ∈ pl then some pl else acc) acc
      = some (world_group N k (r % k)) := by
  intro b
  induction b with
  | zero => intro a acc h1 h2; omega
  | succ b ih =>
      intro a acc h1 h2
      rw [List.range'_succ, List.map_cons, List.foldl_cons]
      by_cases ha : a = r % k
      · subst ha
        have hmem : r ∈ world_group N k (r % k) :=
          (mem_world_group N k (r % k) r).mpr ⟨hrN, rfl⟩
        rw [if_pos hmem]
        apply fold_world_miss
        intro pl hpl hr
        rcases List.mem_map.mp hpl with ⟨g, hg, rfl⟩
        have hgr := (List.mem_range'_1).mp hg
        have hmod := ((mem_world_group N k g r).mp hr).2
        omega
      · have hnot : r ∉ world_group N k a := by
          intro hr
          have hmod := ((mem_world_group N k a r).mp hr).2
          omega
        rw [if_neg hnot]
        exact ih (a + 1) acc (by omega) (by omega)

theorem assigned_world_eq (N k r : Nat) (hk : 0 < k) (hr : r < N) :
    assigned_world N k r = some (world_group N k (r % k)) := by
  unfold assigned_world
  rw [process_list_eq, List.range_eq_range']
  exact fold_world_hit r N k hr k 0 none (by omega)
    (by simpa using Nat.mod_lt r hk)

/-- C5: correctness of the round-robin partitioner `create_worlds` for every
universe size `N`, every partition count `k` with `1 ≤ k ≤ N` and every
universe rank `r < N`: rank `r` is assigned the subworld containing exactly the
ranks congruent to `r` modulo `k`; the process list has exactly `k` groups;
`r` belongs to a group iff it is group `r % k` (so each rank belongs to exactly
one subworld); distinct groups are disjoint; and every group member is a valid
universe rank (the union of the groups is contained in `{0..N-1}`). -/
theorem C5_partition_correct (N k r : Nat) (hk : 1 ≤ k) (_hkN : k ≤ N)
    (hr : r < N) :
    assigned_world N k r = some (world_group N k (r % k)) ∧
    (∀ x : Nat, x ∈ world_group N k (r % k) ↔ (x < N ∧ x % k = r % k)) ∧
    (process_list N k).length = k ∧
    (∀ (g : Nat) (A : List Nat), (process_list N k)[g]? = some A →
      (r ∈ A ↔ g = r % k)) ∧
    (∀ (g1 g2 : Nat) (A B : List Nat), (process_list N k)[g1]? = some A →
      (process_list N k)[g2]? = some B → g1 ≠ g2 →
      ∀ x, x ∈ A → x ∉ B) ∧
    (∀ A ∈ process_list N k, ∀ x ∈ A, x < N) := by
  refine ⟨assigned_world_eq N k r (by omega) hr,
    fun x => mem_world_group N k (r % k) x, ?_, ?_, ?_, ?_⟩
  · rw [process_list_eq]
    simp
  · intro g A hA
    rw [process_list_getElem? N k g] at hA
    by_cases hg : g < k
    · rw [if_pos hg, Option.some.injEq] at hA
      subst hA
      rw [mem_world_group]
      constructor
      · intro hx
        exact hx.2.symm
      · intro hx
        subst hx
        exact ⟨hr, rfl⟩
    · rw [if_neg hg] at hA
      exact absurd hA (by simp)
  · intro g1 g2 A B hA hB hne x hxA hxB
    rw [process_list_getElem? N k g1] at hA
    rw [process_list_getElem? N k g2] at hB
    by_cases hg1 : g1 < k
    · by_cases hg2 : g2 < k
      · rw [if_pos hg1, Option.some.injEq] at hA
        rw [if_pos hg2, Option.some.injEq] at hB
        subst hA
        subst hB
        have h1 := ((mem_world_group N k g1 x).mp hxA).2
        have h2 := ((mem_world_group N k g2 x).mp hxB).2
        omega
      · rw [if_neg hg2] at hB
        exact absurd hB (by simp)
    · rw [if_neg hg1] at hA
      exact absurd hA (by simp)
  · intro A hA x hx
    rw [process_list_eq] at hA
    rcases List.mem_map.mp hA with ⟨g, _, rfl⟩
    exact ((mem_world_group N k g x).mp hx).1

/-- Witness for `C5_partition_correct` on a universe of 3 ranks split into
2 subworlds, as seen by rank 1. -/
theorem C5_partition_correct_witness :
    1 ≤ 2 ∧ 2 ≤ 3 ∧ 1 < 3 ∧
    (assigned_world 3 2 1 = some (world_group 3 2 (1 % 2)) ∧
      (∀ x : Nat, x ∈ world_group 3 2 (1 % 2) ↔ (x < 3 ∧ x % 2 = 1 % 2)) ∧
      (process_list 3 2).length = 2 ∧
      (∀ (g : Nat) (A : List Nat), (process_list 3 2)[g]? = some A →
        (1 ∈ A ↔ g = 1 % 2)) ∧
      (∀ (g1 g2 : Nat) (A B : List Nat), (process_list 3 2)[g1]? = some A →
        (process_list 3 2)[g2]? = some B → g1 ≠ g2 →
        ∀ x, x ∈ A → x ∉ B) ∧
      (∀ A ∈ process_list 3 2, ∀ x ∈ A, x < 3)) :=
  ⟨by omega, by omega, by omega,
   C5_partition_correct 3 2 1 (by omega) (by omega) (by omega)⟩

/-- C8 counterexample: requesting `k = 0` subworlds on a universe of size 2
does not raise `InvalidArgument` — the guard in `create_worlds` only checks
`universe.size() < nworld`, so `k = 0` slips through (and the source then
evaluates `i % 0`, which is undefined behaviour; no group is ever assigned). -/
theorem C8_zero_worlds_counterexample :
    create_worlds 2 0 0 = Except.ok none ∧
    create_worlds 2 0 0 ≠ Except.error WorldError.InvalidArgument := by
  constructor
  · rfl
  · intro h
    exact Except.noConfusion h

/-- C8 (amended): `create_worlds` raises `InvalidArgument` exactly when the
requested subworld count `k` exceeds the universe size `N`; for every `k ≤ N`
— including `k = 0`, which the source does not guard (it runs into a division
by zero instead of reporting an error) — the call returns without raising. -/
theorem C8_guard_iff (N k r : Nat) :
    (create_worlds N k r = Except.error WorldError.InvalidArgument ↔ N < k) ∧
    (create_worlds N k r = Except.ok (assigned_world N k r) ↔ k ≤ N) := by
  unfold create_worlds
  by_cases h : N < k
  · rw [if_pos h]
    exact ⟨⟨fun _ => h, fun _ => rfl⟩,
      ⟨fun he => Except.noConfusion he, fun hle => absurd h (by omega)⟩⟩
  · rw [if_neg h]
    exact ⟨⟨fun he => Except.noConfusion he, fun hlt => absurd hlt h⟩,
      ⟨fun _ => by omega, fun _ => rfl⟩⟩

end MadTaskQ
